import Mathlib

/-!
gomacal: meeting-link extraction, relevance window and display line.

A shallow embedding of `main.go`: `extractMeetingLink`, `formatEventOutput` and the
relevance loop of `main`, together with the parts of the Go standard library they call
(`strings.HasPrefix`, `strings.Contains`, `strings.Split`, `strings.Fields`,
`strings.ToLower`, `time.Time.Sub`, `time.Duration.Round`, `time.Duration.String`).

Conventions of the embedding.

* A Go `string` is a Lean `String`, a sequence of Unicode code points.  The event strings
  come out of a JSON decoder and are valid UTF-8, on which the byte-level functions of
  package `strings` used here agree with their code-point-level versions.
* `time.Duration` is an `Int` number of nanoseconds; the places where the 64-bit range
  matters (`Sub`, `Round`) clamp or wrap explicitly.
* `time.Time` is an `Int` number of nanoseconds on the time line.
* The Unicode case table behind `unicode.ToLower` (non-ASCII code points) and the RFC 3339
  parser `time.Parse` are parameters.
* Pointers that the program dereferences without a test (`item.Start`, the elements of
  `EntryPoints`) are plain values; the one pointer it tests, `event.ConferenceData`, is an
  `Option`.
* A `for` loop with an early `return` is a recursive function to `Option`: `some` is the
  value returned from inside the loop, `none` means the loop ran to its end.
-/

namespace Gomacal

/-! ## Package `strings` -/

/-- Go `unicode.ToLower`: an ASCII code point is lowered by the `'A'..'Z'` test, any other
code point is looked up in the Unicode case table, here the parameter `caseTable`. -/
def toLowerRune (caseTable : Char → Char) (r : Char) : Char :=
  if r.toNat ≤ 0x7F then
    (if 'A'.toNat ≤ r.toNat ∧ r.toNat ≤ 'Z'.toNat then Char.ofNat (r.toNat + 32) else r)
  else caseTable r

/-- Go `strings.ToLower`: every code point mapped through `unicode.ToLower`. -/
def ToLower (caseTable : Char → Char) (s : String) : String :=
  ⟨s.data.map (toLowerRune caseTable)⟩

/-- Go `strings.HasPrefix`. -/
def HasPrefix (s pre : String) : Bool :=
  pre.data.isPrefixOf s.data

/-- Go `strings.Contains`: `substr` is a prefix of some suffix of `s`. -/
def Contains (s substr : String) : Bool :=
  s.data.tails.any (fun t => substr.data.isPrefixOf t)

/-- Pieces of a code-point list between the occurrences of `sep`. -/
def splitChars (sep : Char) : List Char → List (List Char)
  | [] => [[]]
  | c :: cs =>
    if c = sep then [] :: splitChars sep cs
    else (c :: (splitChars sep cs).headD []) :: (splitChars sep cs).tail

/-- Go `strings.Split(s, sep)` for a one-character separator (the program only splits on
`"\n"`): `n` separators give `n + 1` pieces, empty pieces included. -/
def Split (s : String) (sep : Char) : List String :=
  (splitChars sep s.data).map String.mk

/-- Go `unicode.IsSpace`. -/
def isSpace (r : Char) : Bool :=
  let n := r.toNat
  (0x09 ≤ n && n ≤ 0x0D) || n = 0x20 || n = 0x85 || n = 0xA0 || n = 0x1680 ||
    (0x2000 ≤ n && n ≤ 0x200A) || n = 0x2028 || n = 0x2029 || n = 0x202F || n = 0x205F ||
    n = 0x3000

/-- Scan of `strings.Fields`: `cur` holds, reversed, the field being read. -/
def fieldsGo : List Char → List Char → List (List Char)
  | [], cur => if cur.isEmpty then [] else [cur.reverse]
  | c :: cs, cur =>
    if isSpace c then
      (if cur.isEmpty then fieldsGo cs [] else cur.reverse :: fieldsGo cs [])
    else fieldsGo cs (c :: cur)

/-- Go `strings.Fields`: the maximal runs of non-space code points, in order. -/
def Fields (s : String) : List String :=
  (fieldsGo s.data []).map String.mk

/-! ## Calendar data -/

/-- Type `calendar.EntryPoint`, the two fields the program reads. -/
structure EntryPoint where
  EntryPointType : String
  Uri : String
  deriving DecidableEq, Repr

/-- Type `calendar.ConferenceData`, the field the program reads. -/
structure ConferenceData where
  EntryPoints : List EntryPoint
  deriving DecidableEq, Repr

/-- Type `calendar.EventDateTime`, the field the program reads. -/
structure EventDateTime where
  DateTime : String
  deriving DecidableEq, Repr

/-- Type `calendar.Event`, the fields the program reads. -/
structure Event where
  Summary : String
  Location : String
  Description : String
  ConferenceData : Option ConferenceData
  Start : EventDateTime
  deriving DecidableEq, Repr

/-! ## `extractMeetingLink` -/

/-- Loop over `event.ConferenceData.EntryPoints` (lines 29-33): the `Uri` of the entry at
which the loop returns, `none` when it runs to the end. -/
def scanEntryPoints : List EntryPoint → Option String
  | [] => none
  | entry :: rest =>
    if entry.EntryPointType = "video" then some entry.Uri else scanEntryPoints rest

/-- Test of line 51 (and of lines 36-37): the string starts with `http://` or `https://`. -/
def isURLWord (word : String) : Bool :=
  HasPrefix word "http://" || HasPrefix word "https://"

/-- Inner loop over `words` (lines 50-54). -/
def scanWords : List String → Option String
  | [] => none
  | word :: rest => if isURLWord word then some word else scanWords rest

/-- Test of lines 45-48 on one line of the description. -/
def hasMeetingKeyword (line : String) : Bool :=
  Contains line "zoom." || Contains line "teams." || Contains line "meet.google." ||
    Contains line "webex."

/-- Outer loop over `lines` (lines 44-56): a keyword line whose words hold no URL does not
end the loop. -/
def scanLines : List String → Option String
  | [] => none
  | line :: rest =>
    if hasMeetingKeyword line then
      match scanWords (Fields line) with
      | some word => some word
      | none => scanLines rest
    else scanLines rest

/-- Function `extractMeetingLink` of `main.go`. -/
def extractMeetingLink (caseTable : Char → Char) (event : Event) : String :=
  match (match event.ConferenceData with
      | some cd => scanEntryPoints cd.EntryPoints
      | none => none) with
  | some uri => uri
  | none =>
    if event.Location ≠ "" ∧ isURLWord event.Location then event.Location
    else
      match (if event.Description ≠ "" then
          scanLines (Split (ToLower caseTable event.Description) '\n')
        else none) with
      | some word => word
      | none => ""

/-! ## Package `time` -/

/-- Go `time.Duration`: a count of nanoseconds, an `int64` in Go. -/
abbrev Duration := Int

/-- Go `time.Time` as an instant: nanoseconds on the time line. -/
abbrev Time := Int

/-- Smallest `int64`, Go `minDuration`. -/
def minDuration : Duration := -9223372036854775808

/-- Largest `int64`, Go `maxDuration`. -/
def maxDuration : Duration := 9223372036854775807

/-- Go `time.Second`. -/
def Second : Duration := 1000000000

/-- Go `time.Minute`. -/
def Minute : Duration := 60 * Second

/-- Go `time.Hour`. -/
def Hour : Duration := 60 * Minute

/-- Go `Time.Sub`: the difference `t - u`, replaced by `minDuration` or `maxDuration` when it
does not fit an `int64`. -/
def Sub (t u : Time) : Duration :=
  if t - u < minDuration then minDuration
  else if maxDuration < t - u then maxDuration
  else t - u

/-- Result of an `int64` operation whose exact value is `x`: two's complement wrap-around. -/
def wrap64 (x : Int) : Int :=
  (x + 9223372036854775808) % 18446744073709551616 - 9223372036854775808

/-- Conversion `uint64(x)`. -/
def toUint64 (x : Int) : Int :=
  x % 18446744073709551616

/-- Go `lessThanHalf`: `uint64(x)+uint64(x) < uint64(y)`. -/
def lessThanHalf (x y : Duration) : Bool :=
  decide ((toUint64 x + toUint64 x) % 18446744073709551616 < toUint64 y)

/-- Go `Duration.Round`: `d` rounded to the nearest multiple of `m`, halfway values away
from zero; `%` of Go truncates towards zero (`Int.tmod`). -/
def Round (d m : Duration) : Duration :=
  if m ≤ 0 then d
  else
    let r := Int.tmod d m
    if d < 0 then
      let r := wrap64 (-r)
      if lessThanHalf r m then wrap64 (d + r)
      else
        let d1 := wrap64 (d - m + r)
        if d1 < d then d1 else minDuration
    else
      if lessThanHalf r m then wrap64 (d - r)
      else
        let d1 := wrap64 (d + m - r)
        if d1 > d then d1 else maxDuration

/-- Digit byte `byte(digit) + '0'`. -/
def digitByte (digit : Nat) : Char :=
  Char.ofNat (digit % 10 + 48)

/-- Loop of Go `fmtFrac`: `i` digits still to read, `w` the bytes already written. -/
def fmtFracGo : Nat → Nat → Bool → List Char → List Char × Nat × Bool
  | 0, v, print, w => (w, v, print)
  | i + 1, v, print, w =>
    let digit := v % 10
    let print := print || decide (digit ≠ 0)
    fmtFracGo i (v / 10) print (if print then digitByte digit :: w else w)

/-- Go `fmtFrac`: the fraction of `v / 10^prec` written in front of `w` without trailing
zeros (and without the point when it is zero); also returns `v / 10^prec`. -/
def fmtFrac (w : List Char) (v prec : Nat) : List Char × Nat :=
  match fmtFracGo prec v false w with
  | (w1, v1, print) => (if print then '.' :: w1 else w1, v1)

/-- Go `fmtInt`: the decimal digits of `v` written in front of `w`. -/
def fmtInt (w : List Char) (v : Nat) : List Char :=
  Nat.toDigits 10 v ++ w

/-- Go `Duration.format`, as the list of bytes written. -/
def formatDuration (d : Duration) : List Char :=
  let neg := decide (d < 0)
  let u0 := (toUint64 d).toNat
  let u := if neg then (18446744073709551616 - u0) % 18446744073709551616 else u0
  if u < 1000000000 then
    if u = 0 then ['0', 's']
    else
      let body :=
        if u < 1000 then fmtInt (fmtFrac ['n', 's'] u 0).1 (fmtFrac ['n', 's'] u 0).2
        else if u < 1000000 then fmtInt (fmtFrac ['µ', 's'] u 3).1 (fmtFrac ['µ', 's'] u 3).2
        else fmtInt (fmtFrac ['m', 's'] u 6).1 (fmtFrac ['m', 's'] u 6).2
      if neg then '-' :: body else body
  else
    let w := (fmtFrac ['s'] u 9).1
    let u := (fmtFrac ['s'] u 9).2
    let w := fmtInt w (u % 60)
    let u := u / 60
    let w :=
      if u > 0 then
        let w := fmtInt ('m' :: w) (u % 60)
        let u := u / 60
        if u > 0 then fmtInt ('h' :: w) u else w
      else w
    if neg then '-' :: w else w

/-- Go `Duration.String`, which `%v` prints. -/
def durationString (d : Duration) : String :=
  ⟨formatDuration d⟩

/-! ## `formatEventOutput` -/

/-- Variable `timeInfo` of `formatEventOutput` (lines 63-72). -/
def timeInfo (startTime now : Time) : String :=
  let timeUntilStart := Sub startTime now
  if timeUntilStart > 0 then
    "starts in " ++ durationString (Round timeUntilStart Minute)
  else
    let timeSinceStart := Sub now startTime
    "started " ++ durationString (Round timeSinceStart Minute) ++ " ago"

/-- Function `formatEventOutput` of `main.go`; the format `"%s ยง %s ยง %s"` writes its three
string operands with the text ` ยง ` between them. -/
def formatEventOutput (caseTable : Char → Char) (event : Event) (startTime now : Time) :
    String :=
  let meetingLink := extractMeetingLink caseTable event
  event.Summary ++ " ยง " ++ timeInfo startTime now ++ " ยง " ++ meetingLink

/-! ## Relevance loop of `main` -/

/-- Condition of lines 139-143 for an event starting at `startTime`. -/
def inWindow (now : Time) (duration : Duration) (startTime : Time) : Bool :=
  let timeSinceStart := Sub now startTime
  let timeUntilStart := Sub startTime now
  (decide (timeUntilStart ≥ 0) && decide (timeUntilStart ≤ duration)) ||
    (decide (timeSinceStart ≥ 0) && decide (timeSinceStart ≤ duration))

/-- Body of the loop of lines 133-146, one iteration: `parse` stands for
`time.Parse(time.RFC3339, ·)`, `none` being a parse error (the `continue` of line 136). -/
def relevantStep (parse : String → Option Time) (now : Time) (duration : Duration)
    (relevantEvents : List Event) (item : Event) : List Event :=
  match parse item.Start.DateTime with
  | none => relevantEvents
  | some startTime =>
    if inWindow now duration startTime then relevantEvents ++ [item] else relevantEvents

/-- Slice `relevantEvents` of `main` after the loop of lines 131-146 over `items`. -/
def relevantEvents (parse : String → Option Time) (items : List Event) (now : Time)
    (duration : Duration) : List Event :=
  items.foldl (relevantStep parse now duration) []

/-! ## Vocabulary of the statements -/

/-- The event has no conferencing entry of type `"video"` (its conferencing data may be
absent or empty). -/
def NoVideoEntry (event : Event) : Prop :=
  ∀ cd, event.ConferenceData = some cd → ∀ x ∈ cd.EntryPoints, x.EntryPointType ≠ "video"

instance (event : Event) : Decidable (NoVideoEntry event) :=
  match h : event.ConferenceData with
  | none => isTrue (fun cd hcd => by rw [h] at hcd; cases hcd)
  | some cd0 =>
    if hv : ∀ x ∈ cd0.EntryPoints, x.EntryPointType ≠ "video" then
      isTrue (fun cd hcd x hx => by
        rw [h] at hcd
        cases hcd
        exact hv x hx)
    else isFalse (fun hn => hv (hn cd0 h))

/-- The string begins with `http://` or with `https://`, stated on the code points. -/
def BeginsWithURLScheme (s : String) : Prop :=
  "http://".data <+: s.data ∨ "https://".data <+: s.data

instance (s : String) : Decidable (BeginsWithURLScheme s) := by
  unfold BeginsWithURLScheme
  infer_instance

/-- A line of the description qualifies when it contains one of the four keywords and one
of its whitespace-delimited tokens begins with `http://` or `https://`. -/
def qualifies (line : String) : Bool :=
  hasMeetingKeyword line && (Fields line).any isURLWord

/-- Rule 3 of the extractor in the words of the specification: the first URL token of the
first qualifying line of `D`, the empty string when no line of `D` qualifies. -/
def descriptionLinkSpec (D : List String) : String :=
  match D.find? qualifies with
  | none => ""
  | some line =>
    match (Fields line).find? isURLWord with
    | some token => token
    | none => ""

/-- Rows `U+00C0..U+00DE` of the Unicode case table (Latin-1 capitals, `U+00D7` is the
multiplication sign); used to instantiate the case-table parameter in the examples. -/
def latin1CaseTable (r : Char) : Char :=
  if 0xC0 ≤ r.toNat ∧ r.toNat ≤ 0xDE ∧ r.toNat ≠ 0xD7 then Char.ofNat (r.toNat + 32) else r

/-- Event of the end-to-end scenario of the specification. -/
def standup : Event :=
  { Summary := "Standup", Location := "", Description := "",
    ConferenceData := some ⟨[⟨"video", "https://meet.google.com/abc"⟩]⟩,
    Start := ⟨"2023-11-14T22:18:20Z"⟩ }

/-- Event with only a location and a description. -/
def plainEvent (location description : String) : Event :=
  { Summary := "Sync", Location := location, Description := description,
    ConferenceData := none, Start := ⟨"2023-11-14T22:13:20Z"⟩ }

/-- Event whose second conferencing entry is the first of type `"video"`, with an empty
`Uri`, next to a URL location and a description holding a zoom link. -/
def dialInEvent : Event :=
  { Summary := "Review", Location := "https://example.com/room",
    Description := "join via https://zoom.us/j/123",
    ConferenceData := some ⟨[⟨"phone", "tel:+1-555-0100"⟩, ⟨"video", ""⟩,
      ⟨"video", "https://meet.google.com/xyz"⟩]⟩,
    Start := ⟨"2023-11-14T22:13:20Z"⟩ }

/-- The loop of `main` appends `item`: its start parses and lies in the window. -/
def keeps (parse : String → Option Time) (now : Time) (duration : Duration)
    (item : Event) : Bool :=
  match parse item.Start.DateTime with
  | none => false
  | some startTime => inWindow now duration startTime

/-- Values of `time.Parse(time.RFC3339, ·)` on the timestamps of the examples, as
nanoseconds since 1970-01-01T00:00:00Z; the empty `DateTime` of an all-day event is a
parse error, and so is every string outside this table. -/
def parseTable (s : String) : Option Time :=
  if s = "2023-11-14T22:13:20Z" then some (1700000000 * Second)
  else if s = "2023-11-14T23:13:20Z" then some (1700003600 * Second)
  else if s = "2023-11-14T21:13:20Z" then some (1699996400 * Second)
  else if s = "2023-11-14T23:13:21Z" then some (1700003601 * Second)
  else if s = "2023-11-14T21:13:19Z" then some (1699996399 * Second)
  else if s = "2023-11-14T22:18:20Z" then some (1700000300 * Second)
  else none

/-- The instant 2023-11-14T22:13:20Z, the `now` of the examples. -/
def sampleNow : Time := 1700000000 * Second

/-- Event of the examples with the given title and start timestamp. -/
def eventAt (summary dateTime : String) : Event :=
  { Summary := summary, Location := "", Description := "", ConferenceData := none,
    Start := ⟨dateTime⟩ }

/-- Input list of the examples: starts at `now - 1h - 1s`, `now - 1h`, an all-day event,
`now`, `now + 1h` and `now + 1h + 1s`. -/
def agenda : List Event :=
  [eventAt "too early" "2023-11-14T21:13:19Z", eventAt "hour ago" "2023-11-14T21:13:20Z",
   eventAt "all day" "", eventAt "right now" "2023-11-14T22:13:20Z",
   eventAt "in an hour" "2023-11-14T23:13:20Z", eventAt "too late" "2023-11-14T23:13:21Z"]

/-- Event of the examples with the title and link of `standup`, found in its location. -/
def standupByLocation : Event :=
  { Summary := "Standup", Location := "https://meet.google.com/abc",
    Description := "daily", ConferenceData := some ⟨[⟨"phone", "tel:+1-555-0100"⟩]⟩,
    Start := ⟨"2023-11-14T22:18:20Z"⟩ }

/-! ## Lemmas on the string functions -/

theorem isURLWord_iff (s : String) : isURLWord s = true ↔ BeginsWithURLScheme s := by
  simp [isURLWord, HasPrefix, BeginsWithURLScheme, List.isPrefixOf_iff_prefix]

theorem scanEntryPoints_none (l : List EntryPoint)
    (h : ∀ x ∈ l, x.EntryPointType ≠ "video") : scanEntryPoints l = none := by
  induction l with
  | nil => rfl
  | cons a l ih =>
    have ha : a.EntryPointType ≠ "video" := h a (List.mem_cons_self _ _)
    simp only [scanEntryPoints, if_neg ha]
    exact ih (fun x hx => h x (List.mem_cons_of_mem _ hx))

theorem scanEntryPoints_append (pre l : List EntryPoint)
    (h : ∀ x ∈ pre, x.EntryPointType ≠ "video") :
    scanEntryPoints (pre ++ l) = scanEntryPoints l := by
  induction pre with
  | nil => rfl
  | cons a pre ih =>
    have ha : a.EntryPointType ≠ "video" := h a (List.mem_cons_self _ _)
    simp only [List.cons_append, scanEntryPoints, if_neg ha]
    exact ih (fun x hx => h x (List.mem_cons_of_mem _ hx))

theorem conference_scan_none (event : Event) (h : NoVideoEntry event) :
    (match event.ConferenceData with
      | some cd => scanEntryPoints cd.EntryPoints
      | none => none) = none := by
  cases hc : event.ConferenceData with
  | none => rfl
  | some cd => exact scanEntryPoints_none _ (h cd hc)

theorem scanWords_eq_find (ws : List String) : scanWords ws = ws.find? isURLWord := by
  induction ws with
  | nil => rfl
  | cons w ws ih =>
    by_cases hw : isURLWord w = true
    · simp [scanWords, List.find?_cons, hw]
    · simp only [Bool.not_eq_true] at hw
      simp [scanWords, List.find?_cons, hw, ih]

theorem scanLines_eq_find (ls : List String) :
    scanLines ls =
      match ls.find? qualifies with
      | none => none
      | some line => (Fields line).find? isURLWord := by
  induction ls with
  | nil => rfl
  | cons l ls ih =>
    by_cases hk : hasMeetingKeyword l = true
    · cases hw : (Fields l).find? isURLWord with
      | none =>
        have hq : qualifies l = false := by
          have hany : (Fields l).any isURLWord = false := by
            rw [Bool.eq_false_iff]
            intro hany
            obtain ⟨x, hx, hpx⟩ := List.any_eq_true.1 hany
            exact (List.find?_eq_none.1 hw) x hx hpx
          simp [qualifies, hany]
        simp only [scanLines, hk, if_true, scanWords_eq_find, hw, List.find?_cons, hq]
        exact ih
      | some w =>
        have hq : qualifies l = true := by
          have hany : (Fields l).any isURLWord = true :=
            List.any_eq_true.2 ⟨w, List.mem_of_find?_eq_some hw, List.find?_some hw⟩
          simp [qualifies, hk, hany]
        simp only [scanLines, hk, if_true, scanWords_eq_find, hw, List.find?_cons, hq]
    · simp only [Bool.not_eq_true] at hk
      have hq : qualifies l = false := by simp [qualifies, hk]
      simp only [scanLines, hk, List.find?_cons, hq]
      simpa using ih

theorem description_scan_eq_spec (caseTable : Char → Char) (desc : String) :
    (match (if desc ≠ "" then scanLines (Split (ToLower caseTable desc) '\n') else none) with
      | some word => word
      | none => "") = descriptionLinkSpec (Split (ToLower caseTable desc) '\n') := by
  by_cases hd : desc = ""
  · subst hd
    rfl
  · simp only [ne_eq, hd, not_false_eq_true, if_true, scanLines_eq_find, descriptionLinkSpec]
    cases (Split (ToLower caseTable desc) '\n').find? qualifies with
    | none => rfl
    | some line =>
      cases (Fields line).find? isURLWord <;> rfl

theorem extract_of_no_video (caseTable : Char → Char) (event : Event)
    (hnv : NoVideoEntry event) (hloc : ¬ BeginsWithURLScheme event.Location) :
    extractMeetingLink caseTable event =
      descriptionLinkSpec (Split (ToLower caseTable event.Description) '\n') := by
  have hl : ¬ (event.Location ≠ "" ∧ isURLWord event.Location = true) :=
    fun h => hloc ((isURLWord_iff _).1 h.2)
  unfold extractMeetingLink
  rw [conference_scan_none event hnv]
  simp only [hl, if_false]
  exact description_scan_eq_spec caseTable event.Description

theorem splitChars_mem (sep : Char) (s piece : List Char) (c : Char)
    (hp : piece ∈ splitChars sep s) (hc : c ∈ piece) : c ∈ s := by
  induction s generalizing piece with
  | nil =>
    simp only [splitChars, List.mem_singleton] at hp
    subst hp
    exact hc
  | cons a s ih =>
    have hcover : ∀ q, q ∈ (splitChars sep s).headD [] :: (splitChars sep s).tail →
        c ∈ q → c ∈ s := by
      intro q hq hcq
      cases hs : splitChars sep s with
      | nil =>
        rw [hs] at hq
        simp only [List.headD_nil, List.tail_nil, List.mem_singleton] at hq
        subst hq
        cases hcq
      | cons x xs =>
        rw [hs] at hq
        simp only [List.headD_cons, List.tail_cons] at hq
        exact ih q (hs ▸ hq) hcq
    by_cases ha : a = sep
    · simp only [splitChars, if_pos ha, List.mem_cons] at hp
      rcases hp with hp | hp
      · subst hp
        cases hc
      · exact List.mem_cons_of_mem _ (ih piece hp hc)
    · simp only [splitChars, if_neg ha, List.mem_cons] at hp
      rcases hp with hp | hp
      · subst hp
        rcases List.mem_cons.1 hc with h | h
        · exact h ▸ List.mem_cons_self _ _
        · exact List.mem_cons_of_mem _
            (hcover _ (List.mem_cons_self _ _) h)
      · exact List.mem_cons_of_mem _
          (hcover piece (List.mem_cons_of_mem _ hp) hc)

theorem fieldsGo_mem (s cur field : List Char) (c : Char)
    (hf : field ∈ fieldsGo s cur) (hc : c ∈ field) : c ∈ s ∨ c ∈ cur := by
  induction s generalizing cur with
  | nil =>
    by_cases he : cur.isEmpty = true
    · rw [fieldsGo, if_pos he] at hf
      cases hf
    · rw [fieldsGo, if_neg he, List.mem_singleton] at hf
      subst hf
      exact Or.inr (List.mem_reverse.1 hc)
  | cons a s ih =>
    by_cases hsp : isSpace a = true
    · by_cases he : cur.isEmpty = true
      · rw [fieldsGo, if_pos hsp, if_pos he] at hf
        rcases ih [] hf with h | h
        · exact Or.inl (List.mem_cons_of_mem _ h)
        · cases h
      · rw [fieldsGo, if_pos hsp, if_neg he, List.mem_cons] at hf
        rcases hf with hf | hf
        · subst hf
          exact Or.inr (List.mem_reverse.1 hc)
        · rcases ih [] hf with h | h
          · exact Or.inl (List.mem_cons_of_mem _ h)
          · cases h
    · rw [fieldsGo, if_neg hsp] at hf
      rcases ih (a :: cur) hf with h | h
      · exact Or.inl (List.mem_cons_of_mem _ h)
      · rcases List.mem_cons.1 h with h | h
        · exact Or.inl (h ▸ List.mem_cons_self _ _)
        · exact Or.inr h

theorem Split_mem (s line : String) (sep c : Char) (hl : line ∈ Split s sep)
    (hc : c ∈ line.data) : c ∈ s.data := by
  obtain ⟨piece, hp, rfl⟩ := List.mem_map.1 hl
  exact splitChars_mem sep s.data piece c hp hc

theorem Fields_mem (s word : String) (c : Char) (hw : word ∈ Fields s)
    (hc : c ∈ word.data) : c ∈ s.data := by
  obtain ⟨field, hf, rfl⟩ := List.mem_map.1 hw
  rcases fieldsGo_mem s.data [] field c hf hc with h | h
  · exact h
  · cases h

theorem descriptionLinkSpec_mem (D : List String) (c : Char)
    (hc : c ∈ (descriptionLinkSpec D).data) : ∃ line ∈ D, c ∈ line.data := by
  unfold descriptionLinkSpec at hc
  cases hq : D.find? qualifies with
  | none =>
    rw [hq] at hc
    cases hc
  | some line =>
    rw [hq] at hc
    cases hw : (Fields line).find? isURLWord with
    | none =>
      simp only [hw] at hc
      cases hc
    | some token =>
      simp only [hw] at hc
      exact ⟨line, List.mem_of_find?_eq_some hq,
        Fields_mem line token c (List.mem_of_find?_eq_some hw) hc⟩

theorem toLowerRune_upper (caseTable : Char → Char) (c : Char)
    (h1 : 'A'.toNat ≤ c.toNat) (h2 : c.toNat ≤ 'Z'.toNat) : toLowerRune caseTable c ≠ c := by
  have h3 : c.toNat ≤ 0x7F := le_trans h2 (by decide)
  have h4 : 65 ≤ c.toNat := h1
  have h5 : c.toNat ≤ 90 := h2
  simp only [toLowerRune, if_pos h3, if_pos (And.intro h1 h2)]
  have hc : c = Char.ofNat c.toNat := (Char.ofNat_toNat c).symm
  generalize c.toNat = n at *
  subst hc
  clear h1 h2 h3
  interval_cases n <;> decide

theorem latin1_idempotent (r : Char) :
    toLowerRune latin1CaseTable (toLowerRune latin1CaseTable r) =
      toLowerRune latin1CaseTable r := by
  have hc : r = Char.ofNat r.toNat := (Char.ofNat_toNat r).symm
  by_cases h1 : r.toNat ≤ 0x7F
  · by_cases h2 : 'A'.toNat ≤ r.toNat ∧ r.toNat ≤ 'Z'.toNat
    · have h4 : 65 ≤ r.toNat := h2.1
      have h5 : r.toNat ≤ 90 := h2.2
      generalize r.toNat = n at *
      subst hc
      clear h1 h2
      interval_cases n <;> decide
    · have h3 : ¬ (65 ≤ r.toNat ∧ r.toNat ≤ 90) := h2
      simp [toLowerRune, h1, h3]
  · by_cases h2 : 0xC0 ≤ r.toNat ∧ r.toNat ≤ 0xDE ∧ r.toNat ≠ 0xD7
    · have h4 : 192 ≤ r.toNat := h2.1
      have h5 : r.toNat ≤ 222 := h2.2.1
      generalize r.toNat = n at *
      subst hc
      clear h1 h2
      interval_cases n <;> decide
    · have h3 : ¬ (192 ≤ r.toNat ∧ r.toNat ≤ 222 ∧ r.toNat ≠ 215) := h2
      simp only [toLowerRune, if_neg h1, latin1CaseTable]
      simp only [h3, if_false, if_neg h1]

/-! ## The meeting-link extractor -/

/-- C1: when the conferencing entries hold an entry of type `"video"`, `extractMeetingLink`
returns the `Uri` of the first such entry in list order, whatever the location and the
description are. -/
theorem extractMeetingLink_first_video (caseTable : Char → Char) (event : Event)
    (cd : ConferenceData) (before after : List EntryPoint) (entry : EntryPoint)
    (hcd : event.ConferenceData = some cd)
    (hsplit : cd.EntryPoints = before ++ entry :: after)
    (hbefore : ∀ x ∈ before, x.EntryPointType ≠ "video")
    (hentry : entry.EntryPointType = "video") :
    extractMeetingLink caseTable event = entry.Uri := by
  unfold extractMeetingLink
  rw [hcd]
  simp only [hsplit, scanEntryPoints_append _ _ hbefore, scanEntryPoints, if_pos hentry]

/-- Instance of C1: the first `"video"` entry of `dialInEvent` is its second entry, with an
empty `Uri`; the URL location and the zoom link of the description are not looked at. -/
theorem extractMeetingLink_first_video_witness :
    extractMeetingLink latin1CaseTable dialInEvent = "" :=
  extractMeetingLink_first_video latin1CaseTable dialInEvent
    ⟨[⟨"phone", "tel:+1-555-0100"⟩, ⟨"video", ""⟩, ⟨"video", "https://meet.google.com/xyz"⟩]⟩
    [⟨"phone", "tel:+1-555-0100"⟩] [⟨"video", "https://meet.google.com/xyz"⟩] ⟨"video", ""⟩
    rfl rfl (by decide) rfl

/-- C2: without a `"video"` entry, a location that begins with `http://` or `https://` is
returned unchanged, whatever the description is. -/
theorem extractMeetingLink_location (caseTable : Char → Char) (event : Event)
    (hnv : NoVideoEntry event) (hloc : BeginsWithURLScheme event.Location) :
    extractMeetingLink caseTable event = event.Location := by
  have hne : event.Location ≠ "" := by
    intro h
    rw [h] at hloc
    revert hloc
    decide
  have hl : event.Location ≠ "" ∧ isURLWord event.Location = true :=
    ⟨hne, (isURLWord_iff _).2 hloc⟩
  unfold extractMeetingLink
  rw [conference_scan_none event hnv]
  simp only [if_pos hl]

/-- Instances of C2: a location with upper-case letters comes back character for character,
although the description holds a zoom link; so does a location next to conferencing data
that has no `"video"` entry. -/
theorem extractMeetingLink_location_witness :
    extractMeetingLink latin1CaseTable
        (plainEvent "https://Zoom.US/J/ABC" "join via https://zoom.us/j/123") =
        "https://Zoom.US/J/ABC" ∧
      extractMeetingLink latin1CaseTable standupByLocation = "https://meet.google.com/abc" :=
  ⟨extractMeetingLink_location latin1CaseTable
      (plainEvent "https://Zoom.US/J/ABC" "join via https://zoom.us/j/123")
      (by decide) (by decide),
   extractMeetingLink_location latin1CaseTable standupByLocation (by decide) (by decide)⟩

/-- C3: without a `"video"` entry and without a URL location, `extractMeetingLink` returns
the first URL token of the first line of the lower-cased description that holds a keyword
and such a token, and the empty string when no line qualifies. -/
theorem extractMeetingLink_description (caseTable : Char → Char) (event : Event)
    (hnv : NoVideoEntry event) (hloc : ¬ BeginsWithURLScheme event.Location) :
    extractMeetingLink caseTable event =
      descriptionLinkSpec (Split (ToLower caseTable event.Description) '\n') :=
  extract_of_no_video caseTable event hnv hloc

/-- Instances of C3: the zoom line of the specification; a keyword line without URL token
followed by a URL on a line without keyword; a keyword line without URL token followed by
a qualifying line. -/
theorem extractMeetingLink_description_witness :
    extractMeetingLink latin1CaseTable (plainEvent "" "join via https://zoom.us/j/123") =
        "https://zoom.us/j/123" ∧
      extractMeetingLink latin1CaseTable
        (plainEvent "Room 4" "dial in on zoom. today\nagenda: https://example.com/a") = "" ∧
      extractMeetingLink latin1CaseTable
        (plainEvent "Room 4" "ask teams. admins\nor https://x.org webex. http://Webex.com/M") =
        "https://x.org" :=
  ⟨(extractMeetingLink_description latin1CaseTable
      (plainEvent "" "join via https://zoom.us/j/123")
      (by decide) (by decide)).trans (by decide),
   (extractMeetingLink_description latin1CaseTable
      (plainEvent "Room 4" "dial in on zoom. today\nagenda: https://example.com/a")
      (by decide) (by decide)).trans (by decide),
   (extractMeetingLink_description latin1CaseTable
      (plainEvent "Room 4" "ask teams. admins\nor https://x.org webex. http://Webex.com/M")
      (by decide) (by decide)).trans (by decide)⟩

/-- C4: without a `"video"` entry and without a URL location, the returned link is
unchanged by lower-casing and holds no letter `A..Z`, for every case table on which
`unicode.ToLower` is idempotent. -/
theorem description_link_is_lowercase (caseTable : Char → Char)
    (hidem : ∀ r, toLowerRune caseTable (toLowerRune caseTable r) = toLowerRune caseTable r)
    (event : Event) (hnv : NoVideoEntry event)
    (hloc : ¬ BeginsWithURLScheme event.Location) :
    ToLower caseTable (extractMeetingLink caseTable event) =
        extractMeetingLink caseTable event ∧
      ∀ c ∈ (extractMeetingLink caseTable event).data,
        ¬ ('A'.toNat ≤ c.toNat ∧ c.toNat ≤ 'Z'.toNat) := by
  rw [extract_of_no_video caseTable event hnv hloc]
  have hfix : ∀ c ∈ (descriptionLinkSpec
      (Split (ToLower caseTable event.Description) '\n')).data,
      toLowerRune caseTable c = c := by
    intro c hc
    obtain ⟨line, hline, hcl⟩ := descriptionLinkSpec_mem _ c hc
    have hmem : c ∈ (ToLower caseTable event.Description).data :=
      Split_mem _ line '\n' c hline hcl
    obtain ⟨c0, _, rfl⟩ := List.mem_map.1 hmem
    exact hidem c0
  refine ⟨?_, ?_⟩
  · apply String.ext
    show List.map (toLowerRune caseTable) _ = _
    rw [List.map_congr_left hfix, List.map_id']
  · intro c hc hup
    exact toLowerRune_upper caseTable c hup.1 hup.2 (hfix c hc)

/-- Instance of C4: the link found in the description `Join: HTTPS://Zoom.US/J/ABC` is
lower-cased, the same link given as location keeps its case. -/
theorem description_link_is_lowercase_witness :
    extractMeetingLink latin1CaseTable (plainEvent "" "Join: HTTPS://Zoom.US/J/ABC") =
        "https://zoom.us/j/abc" ∧
      ToLower latin1CaseTable "https://zoom.us/j/abc" = "https://zoom.us/j/abc" ∧
      extractMeetingLink latin1CaseTable (plainEvent "https://Zoom.US/J/ABC" "") =
        "https://Zoom.US/J/ABC" := by
  have h := description_link_is_lowercase latin1CaseTable latin1_idempotent
    (plainEvent "" "Join: HTTPS://Zoom.US/J/ABC") (by decide) (by decide)
  have he : extractMeetingLink latin1CaseTable (plainEvent "" "Join: HTTPS://Zoom.US/J/ABC") =
      "https://zoom.us/j/abc" := by decide
  rw [he] at h
  exact ⟨he, h.1, by decide⟩

/-! ## The relevance loop -/

theorem foldl_relevantStep (parse : String → Option Time) (now : Time) (duration : Duration)
    (items acc : List Event) :
    items.foldl (relevantStep parse now duration) acc =
      acc ++ items.filter (keeps parse now duration) := by
  induction items generalizing acc with
  | nil => simp
  | cons item items ih =>
    rw [List.foldl_cons, ih]
    cases hp : parse item.Start.DateTime with
    | none => simp [relevantStep, keeps, hp]
    | some startTime =>
      by_cases hw : inWindow now duration startTime = true
      · simp [relevantStep, keeps, hp, hw]
      · simp [relevantStep, keeps, hp, hw]

theorem relevantEvents_eq_filter (parse : String → Option Time) (items : List Event)
    (now : Time) (duration : Duration) :
    relevantEvents parse items now duration = items.filter (keeps parse now duration) := by
  simp [relevantEvents, foldl_relevantStep]

theorem Sub_eq_of_fits (t u : Time) (h1 : minDuration ≤ t - u) (h2 : t - u ≤ maxDuration) :
    Sub t u = t - u := by
  unfold Sub
  rw [if_neg (not_lt.2 h1), if_neg (not_lt.2 h2)]

theorem Sub_pos_iff (t u : Time) : 0 < Sub t u ↔ 0 < t - u := by
  unfold Sub minDuration maxDuration
  delta Duration Time at *
  split_ifs <;> omega

/-- C5: an event of the input whose start parses, with a difference to `now` that fits a
`Duration`, is in the relevant list exactly when its start lies in the closed window
`[now - duration, now + duration]`, that is when `0 ≤ start - now ≤ duration` or
`0 ≤ now - start ≤ duration`. -/
theorem relevantEvents_mem_iff_window (parse : String → Option Time) (items : List Event)
    (now : Time) (duration : Duration) (item : Event) (startTime : Time)
    (hitem : item ∈ items) (hparse : parse item.Start.DateTime = some startTime)
    (hlo : -maxDuration ≤ startTime - now) (hhi : startTime - now ≤ maxDuration) :
    (item ∈ relevantEvents parse items now duration ↔
        now - duration ≤ startTime ∧ startTime ≤ now + duration) ∧
      (item ∈ relevantEvents parse items now duration ↔
        (0 ≤ startTime - now ∧ startTime - now ≤ duration) ∨
          (0 ≤ now - startTime ∧ now - startTime ≤ duration)) := by
  unfold maxDuration at hlo hhi
  have h1 : Sub startTime now = startTime - now :=
    Sub_eq_of_fits _ _ (by unfold minDuration; delta Duration Time at *; omega)
      (by unfold maxDuration; delta Duration Time at *; omega)
  have h2 : Sub now startTime = now - startTime :=
    Sub_eq_of_fits _ _ (by unfold minDuration; delta Duration Time at *; omega)
      (by unfold maxDuration; delta Duration Time at *; omega)
  have hk : item ∈ relevantEvents parse items now duration ↔
      (0 ≤ startTime - now ∧ startTime - now ≤ duration) ∨
        (0 ≤ now - startTime ∧ now - startTime ≤ duration) := by
    rw [relevantEvents_eq_filter, List.mem_filter]
    simp only [keeps, hparse, inWindow, h1, h2, hitem, true_and, Bool.or_eq_true,
      Bool.and_eq_true, decide_eq_true_eq, ge_iff_le]
  refine ⟨hk.trans ?_, hk⟩
  delta Duration Time at *
  constructor
  · rintro (⟨h3, h4⟩ | ⟨h3, h4⟩) <;> constructor <;> omega
  · rintro ⟨h3, h4⟩
    by_cases h5 : 0 ≤ startTime - now
    · exact Or.inl ⟨h5, by omega⟩
    · exact Or.inr ⟨by omega, by omega⟩

/-- Instance of C5 with `duration = 1h`: starts at `now + 1h` and `now - 1h` are kept,
starts at `now + 1h + 1s` and `now - 1h - 1s` are not. -/
theorem relevantEvents_mem_iff_window_witness :
    eventAt "in an hour" "2023-11-14T23:13:20Z" ∈ relevantEvents parseTable agenda sampleNow Hour ∧
      eventAt "hour ago" "2023-11-14T21:13:20Z" ∈ relevantEvents parseTable agenda sampleNow Hour ∧
      eventAt "too late" "2023-11-14T23:13:21Z" ∉ relevantEvents parseTable agenda sampleNow Hour ∧
      eventAt "too early" "2023-11-14T21:13:19Z" ∉
        relevantEvents parseTable agenda sampleNow Hour :=
  ⟨(relevantEvents_mem_iff_window parseTable agenda sampleNow Hour
      (eventAt "in an hour" "2023-11-14T23:13:20Z") (1700003600 * Second)
      (by decide) (by decide) (by decide) (by decide)).1.2 (by decide),
   (relevantEvents_mem_iff_window parseTable agenda sampleNow Hour
      (eventAt "hour ago" "2023-11-14T21:13:20Z") (1699996400 * Second)
      (by decide) (by decide) (by decide) (by decide)).1.2 (by decide),
   fun h => absurd ((relevantEvents_mem_iff_window parseTable agenda sampleNow Hour
      (eventAt "too late" "2023-11-14T23:13:21Z") (1700003601 * Second)
      (by decide) (by decide) (by decide) (by decide)).1.1 h) (by decide),
   fun h => absurd ((relevantEvents_mem_iff_window parseTable agenda sampleNow Hour
      (eventAt "too early" "2023-11-14T21:13:19Z") (1699996399 * Second)
      (by decide) (by decide) (by decide) (by decide)).1.1 h) (by decide)⟩

/-- C6: the relevant list is a subsequence of the input list, so the kept events stand in
their input order and no event occurs more often than in the input. -/
theorem relevantEvents_sublist (parse : String → Option Time) (items : List Event)
    (now : Time) (duration : Duration) :
    (relevantEvents parse items now duration).Sublist items ∧
      ∀ item, (relevantEvents parse items now duration).count item ≤ items.count item := by
  have h : (relevantEvents parse items now duration).Sublist items := by
    rw [relevantEvents_eq_filter]
    exact List.filter_sublist _
  exact ⟨h, fun item => h.count_le item⟩

/-- An event that starts exactly at `now` satisfies both comparisons of the window test and
is appended once. -/
theorem relevantEvents_start_eq_now :
    relevantEvents parseTable [eventAt "right now" "2023-11-14T22:13:20Z"] sampleNow Hour =
        [eventAt "right now" "2023-11-14T22:13:20Z"] ∧
      relevantEvents parseTable agenda sampleNow Hour =
        [eventAt "hour ago" "2023-11-14T21:13:20Z", eventAt "right now" "2023-11-14T22:13:20Z",
         eventAt "in an hour" "2023-11-14T23:13:20Z"] := by
  constructor <;> decide

/-- C7: an event whose start timestamp does not parse is never in the relevant list, and
the loop gives the same list as on the input without that event. -/
theorem relevantEvents_skips_unparseable (parse : String → Option Time)
    (before after : List Event) (item : Event) (now : Time) (duration : Duration)
    (hparse : parse item.Start.DateTime = none) :
    relevantEvents parse (before ++ item :: after) now duration =
        relevantEvents parse (before ++ after) now duration ∧
      ∀ items, item ∉ relevantEvents parse items now duration := by
  have hk : keeps parse now duration item = false := by simp [keeps, hparse]
  constructor
  · simp [relevantEvents_eq_filter, List.filter_append, List.filter_cons, hk]
  · intro items hmem
    rw [relevantEvents_eq_filter, List.mem_filter] at hmem
    rw [hk] at hmem
    exact Bool.false_ne_true hmem.2

/-- Instance of C7: the all-day event of `agenda`, whose `DateTime` is empty. -/
theorem relevantEvents_skips_unparseable_witness :
    relevantEvents parseTable agenda sampleNow Hour =
        relevantEvents parseTable
          [eventAt "too early" "2023-11-14T21:13:19Z", eventAt "hour ago" "2023-11-14T21:13:20Z",
           eventAt "right now" "2023-11-14T22:13:20Z",
           eventAt "in an hour" "2023-11-14T23:13:20Z",
           eventAt "too late" "2023-11-14T23:13:21Z"] sampleNow Hour ∧
      ∀ items, eventAt "all day" "" ∉ relevantEvents parseTable items sampleNow Hour :=
  relevantEvents_skips_unparseable parseTable
    [eventAt "too early" "2023-11-14T21:13:19Z", eventAt "hour ago" "2023-11-14T21:13:20Z"]
    [eventAt "right now" "2023-11-14T22:13:20Z", eventAt "in an hour" "2023-11-14T23:13:20Z",
     eventAt "too late" "2023-11-14T23:13:21Z"]
    (eventAt "all day" "") sampleNow Hour rfl

/-! ## The display line -/

theorem Round_Minute_of_nonneg (d : Duration) (h0 : 0 ≤ d) (h1 : d ≤ maxDuration) :
    Round d Minute =
      if 2 * (d % 60000000000) < 60000000000 then d - d % 60000000000
      else d - d % 60000000000 + 60000000000 := by
  have hm : Minute = 60000000000 := by decide
  unfold Round lessThanHalf wrap64 toUint64
  rw [hm]
  unfold maxDuration at h1
  delta Duration Time at *
  rw [Int.tmod_eq_emod h0 (by omega)]
  have hr0 : 0 ≤ d % 60000000000 := Int.emod_nonneg _ (by omega)
  have hr1 : d % 60000000000 < 60000000000 := Int.emod_lt_of_pos _ (by omega)
  simp only [decide_eq_true_eq]
  split_ifs <;> omega

theorem Round_Minute_bounds (d : Duration) (h0 : 0 ≤ d) (h1 : d ≤ maxDuration) :
    Minute ∣ Round d Minute ∧ d - 30 * Second < Round d Minute ∧
      Round d Minute ≤ d + 30 * Second := by
  have hm : Minute = 60000000000 := by decide
  have hs : Second = 1000000000 := rfl
  rw [Round_Minute_of_nonneg d h0 h1, hm, hs]
  delta Duration Time at *
  split_ifs with h
  · exact ⟨⟨d / 60000000000, by omega⟩, by omega, by omega⟩
  · exact ⟨⟨d / 60000000000 + 1, by omega⟩, by omega, by omega⟩

theorem timeInfo_eq (startTime now : Time) :
    timeInfo startTime now =
      if 0 < startTime - now then
        "starts in " ++ durationString (Round (Sub startTime now) Minute)
      else "started " ++ durationString (Round (Sub now startTime) Minute) ++ " ago" := by
  unfold timeInfo
  by_cases h : 0 < startTime - now
  · rw [if_pos h, if_pos ((Sub_pos_iff _ _).2 h)]
  · rw [if_neg h, if_neg (fun h2 => h ((Sub_pos_iff _ _).1 h2))]

theorem digitChar_mod_latin (n : Nat) : (Nat.digitChar (n % 10)).toNat < 256 := by
  have h : n % 10 < 10 := Nat.mod_lt _ (by decide)
  generalize n % 10 = k at *
  interval_cases k <;> decide

theorem digitByte_latin (n : Nat) : (digitByte n).toNat < 256 := by
  unfold digitByte
  have h : n % 10 < 10 := Nat.mod_lt _ (by decide)
  generalize n % 10 = k at *
  interval_cases k <;> decide

theorem toDigitsCore_latin (fuel n : Nat) (ds : List Char) (h : ∀ c ∈ ds, c.toNat < 256) :
    ∀ c ∈ Nat.toDigitsCore 10 fuel n ds, c.toNat < 256 := by
  induction fuel generalizing n ds with
  | zero => simpa [Nat.toDigitsCore] using h
  | succ fuel ih =>
    have hds : ∀ c ∈ Nat.digitChar (n % 10) :: ds, c.toNat < 256 := by
      intro c hc
      rcases List.mem_cons.1 hc with hc | hc
      · exact hc ▸ digitChar_mod_latin n
      · exact h c hc
    unfold Nat.toDigitsCore
    by_cases hz : n / 10 = 0
    · simpa [hz] using hds
    · simp only [hz, if_false]
      exact ih _ _ hds

theorem fmtInt_latin (w : List Char) (v : Nat) (h : ∀ c ∈ w, c.toNat < 256) :
    ∀ c ∈ fmtInt w v, c.toNat < 256 := by
  intro c hc
  rcases List.mem_append.1 hc with hc | hc
  · exact toDigitsCore_latin _ _ [] (fun _ hx => by cases hx) c hc
  · exact h c hc

theorem fmtFracGo_latin (i v : Nat) (print : Bool) (w : List Char)
    (h : ∀ c ∈ w, c.toNat < 256) : ∀ c ∈ (fmtFracGo i v print w).1, c.toNat < 256 := by
  induction i generalizing v print w with
  | zero => simpa [fmtFracGo] using h
  | succ i ih =>
    unfold fmtFracGo
    apply ih
    intro c hc
    split_ifs at hc
    · rcases List.mem_cons.1 hc with hc | hc
      · exact hc ▸ digitByte_latin _
      · exact h c hc
    · exact h c hc

theorem fmtFrac_latin (w : List Char) (v prec : Nat) (h : ∀ c ∈ w, c.toNat < 256) :
    ∀ c ∈ (fmtFrac w v prec).1, c.toNat < 256 := by
  have hgo := fmtFracGo_latin prec v false w h
  unfold fmtFrac
  generalize fmtFracGo prec v false w = res at hgo
  obtain ⟨w1, v1, print⟩ := res
  intro c hc
  simp only [] at hc hgo
  split_ifs at hc
  · rcases List.mem_cons.1 hc with hc | hc
    · rw [hc]
      decide
    · exact hgo c hc
  · exact hgo c hc

theorem cons_latin (a : Char) (w : List Char) (ha : a.toNat < 256)
    (h : ∀ c ∈ w, c.toNat < 256) : ∀ c ∈ a :: w, c.toNat < 256 := by
  intro c hc
  rcases List.mem_cons.1 hc with hc | hc
  · exact hc ▸ ha
  · exact h c hc

theorem formatDuration_latin (d : Duration) : ∀ c ∈ formatDuration d, c.toNat < 256 := by
  have hunit : ∀ a b : Char, a.toNat < 256 → b.toNat < 256 →
      ∀ c ∈ [a, b], c.toNat < 256 :=
    fun a b ha hb => cons_latin a [b] ha (cons_latin b [] hb (fun _ hx => by cases hx))
  have hs : ∀ c ∈ ['s'], c.toNat < 256 :=
    cons_latin 's' [] (by decide) (fun _ hx => by cases hx)
  unfold formatDuration
  simp only []
  split_ifs
  all_goals
    first
    | exact hunit _ _ (by decide) (by decide)
    | (apply cons_latin _ _ (by decide))
    | skip
  all_goals
    first
    | exact fmtInt_latin _ _ (fmtFrac_latin _ _ _ (hunit _ _ (by decide) (by decide)))
    | exact fmtInt_latin _ _ (cons_latin _ _ (by decide)
        (fmtInt_latin _ _ (cons_latin _ _ (by decide)
          (fmtInt_latin _ _ (fmtFrac_latin _ _ _ hs)))))
    | exact fmtInt_latin _ _ (cons_latin _ _ (by decide)
        (fmtInt_latin _ _ (fmtFrac_latin _ _ _ hs)))
    | exact fmtInt_latin _ _ (fmtFrac_latin _ _ _ hs)

theorem timeInfo_latin (startTime now : Time) :
    ∀ c ∈ (timeInfo startTime now).data, c.toNat < 256 := by
  have h1 : ∀ c ∈ "starts in ".data, c.toNat < 256 := by decide
  have h2 : ∀ c ∈ "started ".data, c.toNat < 256 := by decide
  have h3 : ∀ c ∈ " ago".data, c.toNat < 256 := by decide
  intro c hc
  unfold timeInfo at hc
  simp only [] at hc
  split_ifs at hc
  · rw [String.data_append] at hc
    rcases List.mem_append.1 hc with hc | hc
    · exact h1 c hc
    · exact formatDuration_latin _ c hc
  · rw [String.data_append, String.data_append] at hc
    rcases List.mem_append.1 hc with hc | hc
    · rcases List.mem_append.1 hc with hc | hc
      · exact h2 c hc
      · exact formatDuration_latin _ c hc
    · exact h3 c hc

theorem not_infix_of_not_Contains (s : String) (sub : String)
    (h : Contains s sub = false) : ¬ sub.data <:+: s.data := by
  intro hin
  obtain ⟨t, hpre, hsuf⟩ := List.infix_iff_prefix_suffix.1 hin
  have hany : Contains s sub = true := by
    unfold Contains
    exact List.any_eq_true.2
      ⟨t, (List.mem_tails _ _).2 hsuf, List.isPrefixOf_iff_prefix.2 hpre⟩
  rw [h] at hany
  exact Bool.false_ne_true hany

theorem delimiter_not_inside (b ra rb : List Char) (hb : ¬ ['ย', 'ง'] <:+: b)
    (h : ' ' :: 'ย' :: 'ง' :: ' ' :: ra = b ++ ' ' :: 'ย' :: 'ง' :: ' ' :: rb) : b = [] := by
  match b, hb, h with
  | [], _, _ => rfl
  | [_], _, h =>
    simp only [List.cons_append, List.nil_append, List.cons.injEq] at h
    exact absurd h.2.1 (by decide)
  | [_, _], _, h =>
    simp only [List.cons_append, List.nil_append, List.cons.injEq] at h
    exact absurd h.2.2.1 (by decide)
  | c1 :: c2 :: c3 :: b, hb, h =>
    simp only [List.cons_append, List.cons.injEq] at h
    obtain ⟨_, h2, h3, _⟩ := h
    subst h2 h3
    exact absurd ⟨[c1], b, rfl⟩ hb

theorem delimiter_cancel (a b ra rb : List Char) (ha : ¬ ['ย', 'ง'] <:+: a)
    (hb : ¬ ['ย', 'ง'] <:+: b)
    (h : a ++ ' ' :: 'ย' :: 'ง' :: ' ' :: ra = b ++ ' ' :: 'ย' :: 'ง' :: ' ' :: rb) :
    a = b ∧ ra = rb := by
  induction a generalizing b with
  | nil =>
    have hbn : b = [] := delimiter_not_inside b ra rb hb h
    subst hbn
    simp only [List.nil_append, List.cons.injEq, true_and] at h
    exact ⟨rfl, h⟩
  | cons c a ih =>
    cases b with
    | nil =>
      have han : c :: a = [] := delimiter_not_inside (c :: a) rb ra ha h.symm
      cases han
    | cons c2 b =>
      simp only [List.cons_append, List.cons.injEq] at h
      obtain ⟨hc, ht⟩ := h
      subst hc
      have ha2 : ¬ ['ย', 'ง'] <:+: a := fun hin => ha (List.infix_cons hin)
      have hb2 : ¬ ['ย', 'ง'] <:+: b := fun hin => hb (List.infix_cons hin)
      obtain ⟨hab, hr⟩ := ih b ha2 hb2 ht
      exact ⟨by rw [hab], hr⟩

/-- C8: the display line is the title, the relative-time phrase and the extracted link
joined by ` ยง `; the phrase is `starts in` with the rounded `startTime - now` when that
difference is positive, and `started ... ago` with the rounded `now - startTime` otherwise
(also at `startTime = now`).  The scenario of the specification, for every `now`: a start
five minutes ahead gives `Standup ยง starts in 5m0s ยง https://meet.google.com/abc`. -/
theorem formatEventOutput_eq (caseTable : Char → Char) (event : Event)
    (startTime now : Time) :
    formatEventOutput caseTable event startTime now =
        event.Summary ++ " ยง " ++
          (if 0 < startTime - now then
            "starts in " ++ durationString (Round (Sub startTime now) Minute)
          else "started " ++ durationString (Round (Sub now startTime) Minute) ++ " ago") ++
          " ยง " ++ extractMeetingLink caseTable event ∧
      formatEventOutput caseTable event now now =
        event.Summary ++ " ยง started 0s ago ยง " ++ extractMeetingLink caseTable event ∧
      formatEventOutput caseTable standup (now + 5 * Minute) now =
        "Standup ยง starts in 5m0s ยง https://meet.google.com/abc" ∧
      formatEventOutput caseTable (eventAt "Lunch" "") now now = "Lunch ยง started 0s ago ยง " := by
  have h5 : Sub (now + 5 * Minute) now = 5 * Minute := by
    unfold Sub
    rw [add_sub_cancel_left]
    rfl
  have h0 : Sub now now = 0 := by
    unfold Sub
    rw [sub_self]
    rfl
  refine ⟨?_, ?_, ?_, ?_⟩
  · unfold formatEventOutput
    rw [timeInfo_eq]
  · have hr : durationString (Round 0 Minute) = "0s" := by decide
    unfold formatEventOutput timeInfo
    simp only [h0]
    rw [if_neg (by decide), hr]
    apply String.ext
    simp [String.data_append]
  · unfold formatEventOutput timeInfo
    simp only [h5]
    rfl
  · unfold formatEventOutput timeInfo
    simp only [h0]
    rfl

/-- C9: when the difference between `startTime` and `now` fits a `Duration`, the duration
shown in the phrase is `r = Round d Minute` for the distance `d = |startTime - now|`, and
`r` is a whole number of minutes with `d - 30s < r ≤ d + 30s`. -/
theorem formatEventOutput_rounds_to_minute (caseTable : Char → Char) (event : Event)
    (startTime now : Time)
    (hlo : -maxDuration ≤ startTime - now) (hhi : startTime - now ≤ maxDuration) :
    formatEventOutput caseTable event startTime now =
        event.Summary ++ " ยง " ++
          (if 0 < startTime - now then
            "starts in " ++ durationString (Round |startTime - now| Minute)
          else "started " ++ durationString (Round |startTime - now| Minute) ++ " ago") ++
          " ยง " ++ extractMeetingLink caseTable event ∧
      Minute ∣ Round |startTime - now| Minute ∧
      |startTime - now| - 30 * Second < Round |startTime - now| Minute ∧
      Round |startTime - now| Minute ≤ |startTime - now| + 30 * Second := by
  have hmax : maxDuration = 9223372036854775807 := rfl
  have hmin : minDuration = -9223372036854775808 := rfl
  by_cases h : 0 < startTime - now
  · have hs : Sub startTime now = startTime - now :=
      Sub_eq_of_fits _ _ (by rw [hmin]; rw [hmax] at hlo; delta Duration Time at *; omega) hhi
    rw [abs_of_pos h]
    refine ⟨?_, Round_Minute_bounds _ (le_of_lt h) hhi⟩
    unfold formatEventOutput
    rw [timeInfo_eq, if_pos h, if_pos h, hs]
  · have hle : startTime - now ≤ 0 := not_lt.1 h
    have hs : Sub now startTime = now - startTime :=
      Sub_eq_of_fits _ _ (by rw [hmin]; rw [hmax] at hhi; delta Duration Time at *; omega)
        (by rw [hmax]; rw [hmax] at hlo; delta Duration Time at *; omega)
    rw [abs_of_nonpos hle, neg_sub]
    refine ⟨?_, Round_Minute_bounds _ (by delta Duration Time at *; omega)
      (by rw [hmax]; rw [hmax] at hlo; delta Duration Time at *; omega)⟩
    unfold formatEventOutput
    rw [timeInfo_eq, if_neg h, if_neg h, hs]

/-- Instance of C9: a start 29 seconds ahead is shown as `starts in 0s`; the phrases at
distances of 29 seconds, 30 seconds and 5 minutes on both sides of `now`. -/
theorem formatEventOutput_rounds_to_minute_witness :
    formatEventOutput latin1CaseTable standup (sampleNow + 29 * Second) sampleNow =
        "Standup ยง starts in 0s ยง https://meet.google.com/abc" ∧
      Round |sampleNow + 29 * Second - sampleNow| Minute = 0 ∧
      timeInfo (sampleNow + 29 * Second) sampleNow = "starts in 0s" ∧
      timeInfo (sampleNow + 30 * Second) sampleNow = "starts in 1m0s" ∧
      timeInfo (sampleNow + 5 * Minute) sampleNow = "starts in 5m0s" ∧
      timeInfo (sampleNow - 29 * Second) sampleNow = "started 0s ago" ∧
      timeInfo (sampleNow - 30 * Second) sampleNow = "started 1m0s ago" ∧
      timeInfo (sampleNow - 5 * Minute) sampleNow = "started 5m0s ago" :=
  ⟨(formatEventOutput_rounds_to_minute latin1CaseTable standup (sampleNow + 29 * Second)
      sampleNow (by decide) (by decide)).1.trans (by decide),
    by decide, by decide, by decide, by decide, by decide, by decide, by decide⟩

/-- C10: when neither the titles nor the extracted links contain `ยง`, two equal display
lines have equal titles, equal relative-time phrases and equal links. -/
theorem formatEventOutput_fields_separable (caseTable : Char → Char) (e1 e2 : Event)
    (s1 n1 s2 n2 : Time)
    (ht1 : Contains e1.Summary "ยง" = false) (ht2 : Contains e2.Summary "ยง" = false)
    (_hl1 : Contains (extractMeetingLink caseTable e1) "ยง" = false)
    (_hl2 : Contains (extractMeetingLink caseTable e2) "ยง" = false)
    (h : formatEventOutput caseTable e1 s1 n1 = formatEventOutput caseTable e2 s2 n2) :
    e1.Summary = e2.Summary ∧ timeInfo s1 n1 = timeInfo s2 n2 ∧
      extractMeetingLink caseTable e1 = extractMeetingLink caseTable e2 := by
  have hphrase : ∀ s n : Time, ¬ ['ย', 'ง'] <:+: (timeInfo s n).data := by
    intro s n hin
    have hmem : 'ย' ∈ (timeInfo s n).data := hin.subset (List.mem_cons_self _ _)
    exact absurd (timeInfo_latin s n _ hmem) (by decide)
  have hsep : " ยง ".data = [' ', 'ย', 'ง', ' '] := by decide
  have hdata := congrArg String.data h
  unfold formatEventOutput at hdata
  simp only [String.data_append, hsep, List.append_assoc, List.cons_append,
    List.nil_append] at hdata
  obtain ⟨htitle, hrest⟩ := delimiter_cancel _ _ _ _
    (not_infix_of_not_Contains _ _ ht1) (not_infix_of_not_Contains _ _ ht2) hdata
  obtain ⟨hinfo, hlink⟩ := delimiter_cancel _ _ _ _ (hphrase s1 n1) (hphrase s2 n2) hrest
  exact ⟨String.ext htitle, String.ext hinfo, String.ext hlink⟩

/-- Instance of C10: two different events at two different start times with the same
display line. -/
theorem formatEventOutput_fields_separable_witness :
    standup.Summary = standupByLocation.Summary ∧
      timeInfo (sampleNow + 5 * Minute) sampleNow =
        timeInfo (sampleNow + 5 * Minute + 10 * Second) sampleNow ∧
      extractMeetingLink latin1CaseTable standup =
        extractMeetingLink latin1CaseTable standupByLocation :=
  formatEventOutput_fields_separable latin1CaseTable standup standupByLocation
    (sampleNow + 5 * Minute) sampleNow (sampleNow + 5 * Minute + 10 * Second) sampleNow
    (by decide) (by decide) (by decide) (by decide) (by decide)

end Gomacal
